import Mathlib

/-!
# VecND: a fixed-shape dense N-dimensional array

Shallow embedding of `src/vecnd.h`.

* `size_t` values are natural numbers; every `size_t` operation that can wrap is
  written with an explicit `% SIZE_MOD`.
* `std::array<size_t, N>` is a `List Nat` whose length is the template parameter `N`.
* The template pack `dimensions...` is a `List Nat` parameter of the type `VecND`.
* Undefined behaviour (division by zero, an access outside `_data`) and the thrown
  `std::invalid_argument` are the two constructors of `Error`.
* The operands of the fold expressions are evaluated in pack order (left to right).
-/

namespace VecND

/-! ## Definitions -/

/-- Modulus of `size_t` arithmetic (64-bit `size_t`). -/
def SIZE_MOD : Nat := 18446744073709551616

/-- The ways an operation can fail: the exception thrown by `count_position`, and
undefined behaviour (a division by zero, or an access outside the buffer). -/
inductive Error where
  | invalid_argument
  | undefined_behaviour
  deriving DecidableEq, Repr

/-- The `check_bounds` lambda: `idx < dimensions_arr[cnt++]`.
Returns the comparison and the updated counter. -/
def check_bounds (idx : Nat) (dimensions_arr : List Nat) (cnt : Nat) : Bool × Nat :=
  (decide (idx < dimensions_arr.getD cnt 0), cnt + 1)

/-- The `count_pos` lambda: `mul /= dimensions_arr[cnt++]; return mul * idx;`.
Returns the product, the updated counter and the updated divisor; `none` when the
division is by zero. -/
def count_pos (idx : Nat) (dimensions_arr : List Nat) (cnt mul : Nat) :
    Option (Nat × Nat × Nat) :=
  if dimensions_arr.getD cnt 0 = 0 then none
  else
    let mul1 := mul / dimensions_arr.getD cnt 0
    some ((mul1 * idx) % SIZE_MOD, cnt + 1, mul1)

/-- The fold `(check_bounds(indices, _dimensions, i) && ...)`, short-circuiting,
started with counter `cnt`. -/
def in_bounds_fold (dimensions_arr : List Nat) : List Nat → Nat → Bool
  | [], _ => true
  | idx :: rest, cnt =>
    if (check_bounds idx dimensions_arr cnt).1 then
      in_bounds_fold dimensions_arr rest (check_bounds idx dimensions_arr cnt).2
    else false

/-- The fold `(count_pos(indices, _dimensions, i, mul) + ...)` started with counter
`cnt` and running divisor `mul`. Returns the (wrapping) sum together with the final
counter and the final running divisor; `none` when a division is by zero. -/
def count_position_fold (dimensions_arr : List Nat) :
    List Nat → Nat → Nat → Option (Nat × Nat × Nat)
  | [], cnt, mul => some (0, cnt, mul)
  | idx :: rest, cnt, mul =>
    match count_pos idx dimensions_arr cnt mul with
    | none => none
    | some (v, cnt1, mul1) =>
      match count_position_fold dimensions_arr rest cnt1 mul1 with
      | none => none
      | some (s, cnt2, mul2) => some ((v + s) % SIZE_MOD, cnt2, mul2)

/-- State of `MultiIndexIterator<N>`; `N` is the common length of the two arrays. -/
structure MultiIndexIterator where
  sizes_ : List Nat
  indices_ : List Nat
  deriving DecidableEq, Repr

/-- Constructor `MultiIndexIterator(sizes, isEnd)`: the indices are a copy of `sizes`
when `isEnd`, and all zero otherwise. -/
def MultiIndexIterator.ctor (sizes : List Nat) (isEnd : Bool) : MultiIndexIterator :=
  if isEnd then { sizes_ := sizes, indices_ := sizes }
  else { sizes_ := sizes, indices_ := List.replicate sizes.length 0 }

/-- The `operator*` of the iterator: the current index array. -/
def MultiIndexIterator.deref (it : MultiIndexIterator) : List Nat := it.indices_

/-- The loop of `operator++` from position `i` on, with `k` positions left
(`k = N - i`). Leaving the loop assigns `indices_ = sizes_`. -/
def MultiIndexIterator.advance_loop (sizes_ : List Nat) : Nat → Nat → List Nat → List Nat
  | 0, _, _ => sizes_
  | k + 1, i, indices_ =>
    let inc := indices_.set i ((indices_.getD i 0 + 1) % SIZE_MOD)
    if inc.getD i 0 < sizes_.getD i 0 then inc
    else MultiIndexIterator.advance_loop sizes_ k (i + 1) (inc.set i 0)

/-- The pre-increment `operator++`. -/
def MultiIndexIterator.advance (it : MultiIndexIterator) : MultiIndexIterator :=
  { sizes_ := it.sizes_,
    indices_ := MultiIndexIterator.advance_loop it.sizes_ it.sizes_.length 0 it.indices_ }

/-- The `operator==` of the iterator: only the index arrays are compared. -/
def MultiIndexIterator.eq (a b : MultiIndexIterator) : Bool :=
  decide (a.indices_ = b.indices_)

/-- The class `MultiIndexRange<N>`. -/
structure MultiIndexRange where
  sizes_ : List Nat
  deriving DecidableEq, Repr

/-- Member `begin()` of the range. -/
def MultiIndexRange.begin (r : MultiIndexRange) : MultiIndexIterator :=
  MultiIndexIterator.ctor r.sizes_ false

/-- Member `end()` of the range. -/
def MultiIndexRange.end_ (r : MultiIndexRange) : MultiIndexIterator :=
  MultiIndexIterator.ctor r.sizes_ true

/-- The range-based `for` over a `MultiIndexRange`, from iterator `it`:
`for (; it != end; ++it) yield *it`. The result is the list of index arrays the loop
body sees; `none` when the fuel runs out before the loop ends. -/
def MultiIndexRange.traverse_from (r : MultiIndexRange) :
    Nat → MultiIndexIterator → Option (List (List Nat))
  | 0, _ => none
  | fuel + 1, it =>
    if it.eq r.end_ then some []
    else
      match MultiIndexRange.traverse_from r fuel it.advance with
      | none => none
      | some rest => some (it.deref :: rest)

/-- The whole range-based `for` loop over the range. -/
def MultiIndexRange.traverse (r : MultiIndexRange) (fuel : Nat) : Option (List (List Nat)) :=
  r.traverse_from fuel r.begin

/-- The constant `N_dim = sizeof...(dimensions)`. -/
def N_dim (dimensions : List Nat) : Nat := dimensions.length

/-- The constant `N_cells = (dimensions * ...)`, a right fold of wrapping products. -/
def N_cells (dimensions : List Nat) : Nat :=
  dimensions.foldr (fun d acc => (d * acc) % SIZE_MOD) 1

/-! ### Vocabulary of the specification -/

/-- A coordinate tuple `c` is in range for the extents `sizes`: it has one component
per axis and each component is strictly below the extent of its axis. -/
def InRange (sizes c : List Nat) : Prop :=
  c.length = sizes.length ∧ ∀ k, k < sizes.length → c.getD k 0 < sizes.getD k 0

/-- An extents tuple of positive extents: every extent is positive and is a `size_t`
value. -/
def Extents (sizes : List Nat) : Prop := ∀ e ∈ sizes, 0 < e ∧ e < SIZE_MOD

/-- Row-major offset in the words of the specification: the sum over the axes `k` of
`i_k` times the product of the extents of the axes strictly after `k`. -/
def rowMajorOffset (sizes c : List Nat) : Nat :=
  ((List.range sizes.length).map (fun k => c.getD k 0 * (sizes.drop (k + 1)).prod)).sum

/-- Row-major offset by recursion on the axes (axis 0 most significant). -/
def offsetRM : List Nat → List Nat → Nat
  | _ :: es, i :: is => i * es.prod + offsetRM es is
  | _, _ => 0

/-- Mixed-radix decomposition of a rank with axis 0 least significant. -/
def unrank : List Nat → Nat → List Nat
  | [], _ => []
  | e :: es, r => (r % e) :: unrank es (r / e)

/-- Mixed-radix rank of a tuple with axis 0 least significant. -/
def rankLS : List Nat → List Nat → Nat
  | e :: es, i :: is => i + e * rankLS es is
  | _, _ => 0

/-- One odometer step by recursion on the axes: `none` when the carry leaves the last
axis. -/
def advanceSpec : List Nat → List Nat → Option (List Nat)
  | e :: es, i :: is =>
    if (i + 1) % SIZE_MOD < e then some ((i + 1) % SIZE_MOD :: is)
    else (advanceSpec es is).map (fun t => 0 :: t)
  | _, _ => none

end VecND

/-- The class `VecND<T, dimensions...>`: the buffer `_data` and the member
`_dimensions`. -/
structure VecND (T : Type) (dimensions : List Nat) where
  _data : List T
  _dimensions : List Nat

namespace VecND

variable {T : Type} {dimensions : List Nat}

/-- The contents of `_data` when a constructor body starts: `N_cells` elements of
unspecified value. -/
def raw_data (dimensions : List Nat) (raw : Fin (N_cells dimensions) → T) : List T :=
  List.ofFn raw

/-- The assignment `_data[i] = v`; undefined behaviour outside the buffer. -/
def store (data : List T) (i : Nat) (v : T) : Except Error (List T) :=
  if i < data.length then .ok (data.set i v) else .error .undefined_behaviour

/-- The loop `for (size_t i = 0; i < N_cells; ++i) _data[i] = element;` shared by
the default constructor (with `element = T()`) and the fill constructors. -/
def fill_loop (n : Nat) (element : T) (data : List T) : List T :=
  (List.range n).foldl (fun d i => d.set i element) data

/-- The default constructor `VecND()`. -/
def default_ctor [Inhabited T] (dimensions : List Nat)
    (raw : Fin (N_cells dimensions) → T) : VecND T dimensions :=
  { _data := fill_loop (N_cells dimensions) default (raw_data dimensions raw),
    _dimensions := dimensions }

/-- The fill constructors `VecND(const T&)` and `VecND(T&&)`. -/
def fill_ctor (dimensions : List Nat) (element : T)
    (raw : Fin (N_cells dimensions) → T) : VecND T dimensions :=
  { _data := fill_loop (N_cells dimensions) element (raw_data dimensions raw),
    _dimensions := dimensions }

/-- Member `create_new_range()`. -/
def create_new_range (self : VecND T dimensions) : MultiIndexRange :=
  { sizes_ := self._dimensions }

/-- The body of the generator constructor over the index arrays `idxs` the range
yields, with slot counter `i`: `_data[i] = std::apply(f, idx); ++i;`. -/
def generator_loop (f : List Nat → T) : List (List Nat) → Nat → List T → Except Error (List T)
  | [], _, data => .ok data
  | idx :: rest, i, data =>
    match store data i (f idx) with
    | .error e => .error e
    | .ok data1 => generator_loop f rest ((i + 1) % SIZE_MOD) data1

/-- The generator constructor `VecND(F&& f)`; `none` when the fuel of the traversal
runs out. -/
def generator_ctor (dimensions : List Nat) (f : List Nat → T)
    (raw : Fin (N_cells dimensions) → T) (fuel : Nat) :
    Option (Except Error (VecND T dimensions)) :=
  let self0 : VecND T dimensions :=
    { _data := raw_data dimensions raw, _dimensions := dimensions }
  match (create_new_range self0).traverse fuel with
  | none => none
  | some idxs =>
    match generator_loop f idxs 0 self0._data with
    | .error e => some (.error e)
    | .ok data => some (.ok { _data := data, _dimensions := dimensions })

/-- Member `cells_number()`. -/
def cells_number (_self : VecND T dimensions) : Nat := N_cells dimensions

/-- Member `sizes()`. -/
def sizes (self : VecND T dimensions) : List Nat := self._dimensions

/-- Member `in_bounds(indices...)`. -/
def in_bounds (self : VecND T dimensions) (indices : List Nat) : Bool :=
  in_bounds_fold self._dimensions indices 0

/-- Member `count_position(indices...)`. -/
def count_position (self : VecND T dimensions) (indices : List Nat) : Except Error Nat :=
  if !(self.in_bounds indices) then .error .invalid_argument
  else
    match count_position_fold self._dimensions indices 0 (N_cells dimensions) with
    | none => .error .undefined_behaviour
    | some (pos, _, _) => .ok pos

/-- Member `_at(indices...)`: the reference `_data[count_position(indices...)]`,
given as the slot it refers to; undefined behaviour outside the buffer. -/
def _at (self : VecND T dimensions) (indices : List Nat) : Except Error Nat :=
  match self.count_position indices with
  | .error e => .error e
  | .ok pos => if pos < self._data.length then .ok pos else .error .undefined_behaviour

/-- Member `at(indices...)` read as a value: the result and the array afterwards. -/
def «at» (self : VecND T dimensions) (indices : List Nat) :
    Except Error T × VecND T dimensions :=
  match self._at indices with
  | .error e => (.error e, self)
  | .ok pos =>
    match self._data[pos]? with
    | none => (.error .undefined_behaviour, self)
    | some x => (.ok x, self)

/-- Member `get(indices...)`: the mutable reference (its slot) and the array
afterwards. -/
def get (self : VecND T dimensions) (indices : List Nat) :
    Except Error Nat × VecND T dimensions :=
  (self._at indices, self)

/-- The statement `self.get(indices...) = v;`. -/
def get_assign (self : VecND T dimensions) (indices : List Nat) (v : T) :
    Except Error Unit × VecND T dimensions :=
  match self.get indices with
  | (.error e, s) => (.error e, s)
  | (.ok pos, s) => (.ok (), { s with _data := s._data.set pos v })

/-- A sequence of statements `self.get(indices...) = v;`, each run on the array the
previous one left; a statement that throws leaves the array as it was. -/
def get_assign_all (self : VecND T dimensions) : List (List Nat × T) → VecND T dimensions
  | [] => self
  | (indices, v) :: rest => get_assign_all (self.get_assign indices v).2 rest

/-- The body of the generator constructor, as `generator_loop`, which also records the
index arrays `f` is called with, in call order. -/
def generator_loop_calls (f : List Nat → T) :
    List (List Nat) → Nat → List T → Except Error (List T × List (List Nat))
  | [], _, data => .ok (data, [])
  | idx :: rest, i, data =>
    match store data i (f idx) with
    | .error e => .error e
    | .ok data1 =>
      match generator_loop_calls f rest ((i + 1) % SIZE_MOD) data1 with
      | .error e => .error e
      | .ok (out, calls) => .ok (out, idx :: calls)

/-- The generator constructor `VecND(F&& f)`, as `generator_ctor`, together with the
record of the calls of `f`. -/
def generator_ctor_calls (dimensions : List Nat) (f : List Nat → T)
    (raw : Fin (N_cells dimensions) → T) (fuel : Nat) :
    Option (Except Error (VecND T dimensions × List (List Nat))) :=
  let self0 : VecND T dimensions :=
    { _data := raw_data dimensions raw, _dimensions := dimensions }
  match (create_new_range self0).traverse fuel with
  | none => none
  | some idxs =>
    match generator_loop_calls f idxs 0 self0._data with
    | .error e => some (.error e)
    | .ok (data, calls) => some (.ok ({ _data := data, _dimensions := dimensions }, calls))

/-- The lambda `f` of `test_fill_lambda_constructor` and `test_at` in `main.cpp`:
`[](size_t x, size_t y, size_t z) -> size_t { return x * y * z; }`, applied to an index
array by `std::apply`. -/
def test_f (idx : List Nat) : Nat :=
  ((idx.getD 0 0 * idx.getD 1 0) % SIZE_MOD * idx.getD 2 0) % SIZE_MOD

/-- A generator that returns its first coordinate component: `f(x, y, z) = x`. -/
def first_component (idx : List Nat) : Nat := idx.getD 0 0

end VecND

namespace VecND

/-- The array is a state the class can be in: the buffer has `N_cells` elements and
`_dimensions` holds the declared extents. -/
def WellFormed {T : Type} {dimensions : List Nat} (self : VecND T dimensions) : Prop :=
  self._data.length = N_cells dimensions ∧ self._dimensions = dimensions

/-! ## Auxiliary lemmas -/

section Aux

theorem getD_append_length (pre : List Nat) (e : Nat) (es : List Nat) :
    (pre ++ e :: es).getD pre.length 0 = e := by
  induction pre with
  | nil => rfl
  | cons p ps ih => simpa using ih

theorem inRange_nil_iff (c : List Nat) : InRange [] c ↔ c = [] := by
  constructor
  · rintro ⟨h, _⟩
    exact List.length_eq_zero.mp h
  · rintro rfl
    exact ⟨rfl, fun k hk => absurd hk (Nat.not_lt_zero k)⟩

theorem inRange_cons_iff (e : Nat) (es : List Nat) (i : Nat) (is : List Nat) :
    InRange (e :: es) (i :: is) ↔ i < e ∧ InRange es is := by
  constructor
  · rintro ⟨hl, h⟩
    refine ⟨by simpa using h 0 (by simp), by simpa using hl, fun k hk => ?_⟩
    simpa using h (k + 1) (by simpa using hk)
  · rintro ⟨h0, hl, h⟩
    refine ⟨by simpa using hl, fun k hk => ?_⟩
    cases k with
    | zero => simpa using h0
    | succ k => simpa using h k (by simpa using hk)

theorem inRange_cons_nil (e : Nat) (es : List Nat) : ¬ InRange (e :: es) [] := by
  rintro ⟨h, _⟩
  simp at h

theorem in_bounds_fold_iff (c : List Nat) :
    ∀ (pre es : List Nat), c.length = es.length →
      (in_bounds_fold (pre ++ es) c pre.length = true ↔ InRange es c) := by
  induction c with
  | nil =>
    intro pre es h
    have : es = [] := List.length_eq_zero.mp h.symm
    subst this
    simp [in_bounds_fold, inRange_nil_iff]
  | cons i is ih =>
    intro pre es h
    cases es with
    | nil => simp at h
    | cons e es =>
      have hl : is.length = es.length := by simpa using h
      have key := ih (pre ++ [e]) es hl
      simp only [List.append_assoc, List.singleton_append, List.length_append,
        List.length_singleton] at key
      simp only [in_bounds_fold, check_bounds, getD_append_length, inRange_cons_iff]
      by_cases hie : i < e
      · simp [hie, key]
      · simp [hie]

theorem N_cells_eq (dims : List Nat) : N_cells dims = dims.prod % SIZE_MOD := by
  induction dims with
  | nil => rfl
  | cons d ds ih =>
    have h : N_cells (d :: ds) = (d * N_cells ds) % SIZE_MOD := rfl
    rw [h, ih, List.prod_cons, Nat.mul_mod_mod]

theorem N_cells_of_lt (dims : List Nat) (h : dims.prod < SIZE_MOD) :
    N_cells dims = dims.prod := by
  rw [N_cells_eq, Nat.mod_eq_of_lt h]

theorem inRange_prod_pos (es : List Nat) : ∀ c, InRange es c → 0 < es.prod := by
  induction es with
  | nil => intro _ _; simp
  | cons e es ih =>
    intro c hc
    cases c with
    | nil => exact absurd hc (inRange_cons_nil e es)
    | cons i is =>
      rw [inRange_cons_iff] at hc
      rw [List.prod_cons]
      exact Nat.mul_pos (by omega) (ih is hc.2)

theorem offsetRM_lt (es : List Nat) : ∀ c, InRange es c → offsetRM es c < es.prod := by
  induction es with
  | nil => intro c _; cases c <;> simp [offsetRM]
  | cons e es ih =>
    intro c hc
    cases c with
    | nil => exact absurd hc (inRange_cons_nil e es)
    | cons i is =>
      rw [inRange_cons_iff] at hc
      have h1 := ih is hc.2
      have h2 : (i + 1) * es.prod ≤ e * es.prod := Nat.mul_le_mul_right _ hc.1
      have h3 : (i + 1) * es.prod = i * es.prod + es.prod := by ring
      simp only [offsetRM, List.prod_cons]
      omega

theorem offsetRM_inj (es : List Nat) :
    ∀ c d, InRange es c → InRange es d → offsetRM es c = offsetRM es d → c = d := by
  induction es with
  | nil =>
    intro c d hc hd _
    rw [(inRange_nil_iff c).mp hc, (inRange_nil_iff d).mp hd]
  | cons e es ih =>
    intro c d hc hd h
    cases c with
    | nil => exact absurd hc (inRange_cons_nil e es)
    | cons i is =>
      cases d with
      | nil => exact absurd hd (inRange_cons_nil e es)
      | cons j js =>
        rw [inRange_cons_iff] at hc hd
        have hp := inRange_prod_pos es is hc.2
        have h1 := offsetRM_lt es is hc.2
        have h2 := offsetRM_lt es js hd.2
        simp only [offsetRM] at h
        have hq : i = j := by
          have e1 : (i * es.prod + offsetRM es is) / es.prod = i := by
            rw [Nat.mul_comm, Nat.mul_add_div hp, Nat.div_eq_of_lt h1, Nat.add_zero]
          have e2 : (j * es.prod + offsetRM es js) / es.prod = j := by
            rw [Nat.mul_comm, Nat.mul_add_div hp, Nat.div_eq_of_lt h2, Nat.add_zero]
          rw [← e1, ← e2, h]
        subst hq
        have hr : offsetRM es is = offsetRM es js := by omega
        rw [ih is js hc.2 hd.2 hr]

theorem rowMajorOffset_cons (e : Nat) (es : List Nat) (i : Nat) (is : List Nat) :
    rowMajorOffset (e :: es) (i :: is) = i * es.prod + rowMajorOffset es is := by
  simp [rowMajorOffset, List.range_succ_eq_map, List.map_map, Function.comp_def]

theorem offsetRM_eq_rowMajorOffset (es : List Nat) :
    ∀ c, c.length = es.length → offsetRM es c = rowMajorOffset es c := by
  induction es with
  | nil => intro c _; cases c <;> simp [offsetRM, rowMajorOffset]
  | cons e es ih =>
    intro c hc
    cases c with
    | nil => simp at hc
    | cons i is =>
      rw [rowMajorOffset_cons, offsetRM, ih is (by simpa using hc)]

theorem count_position_fold_prefix (c : List Nat) :
    ∀ (pre es1 es2 : List Nat), InRange es1 c → (es1 ++ es2).prod < SIZE_MOD →
      count_position_fold (pre ++ (es1 ++ es2)) c pre.length (es1 ++ es2).prod
        = some (offsetRM es1 c * es2.prod, pre.length + c.length, es2.prod) := by
  induction c with
  | nil =>
    intro pre es1 es2 h _
    have : es1 = [] := List.length_eq_zero.mp h.1.symm
    subst this
    simp [count_position_fold, offsetRM]
  | cons i is ih =>
    intro pre es1 es2 h hlt
    cases es1 with
    | nil => simp [InRange] at h
    | cons e es =>
      rw [inRange_cons_iff] at h
      have he : e ≠ 0 := by omega
      have hcons : (e :: es ++ es2).prod = e * (es ++ es2).prod := by
        rw [List.cons_append, List.prod_cons]
      have hdiv : (e :: es ++ es2).prod / e = (es ++ es2).prod := by
        rw [hcons, Nat.mul_div_cancel_left _ (by omega)]
      have hle : (es ++ es2).prod * i ≤ (e :: es ++ es2).prod := by
        rw [hcons, Nat.mul_comm e]
        exact Nat.mul_le_mul_left _ (by omega)
      have hrest : (es ++ es2).prod < SIZE_MOD := by
        have : (es ++ es2).prod ≤ (e :: es ++ es2).prod := by
          rw [hcons]
          exact Nat.le_mul_of_pos_left _ (by omega)
        omega
      have key := ih (pre ++ [e]) es es2 h.2 hrest
      simp only [List.append_assoc, List.singleton_append, List.length_append,
        List.length_singleton] at key
      have hoff := offsetRM_lt (e :: es) (i :: is) ((inRange_cons_iff e es i is).mpr h)
      simp only [offsetRM, List.prod_cons] at hoff
      have hsum : (es ++ es2).prod * i + offsetRM es is * es2.prod
          = (i * es.prod + offsetRM es is) * es2.prod := by
        rw [List.prod_append]
        ring
      have hbound : (i * es.prod + offsetRM es is) * es2.prod ≤ (e :: es ++ es2).prod := by
        rw [hcons, List.prod_append, ← Nat.mul_assoc]
        exact Nat.mul_le_mul_right _ (by omega)
      have hmul : (es ++ es2).prod * i % SIZE_MOD = (es ++ es2).prod * i :=
        Nat.mod_eq_of_lt (by omega)
      simp only [List.cons_append] at hdiv
      simp only [count_position_fold, count_pos, List.cons_append, getD_append_length, he,
        if_false, hdiv, key, hmul, offsetRM, List.length_cons, hsum]
      rw [Nat.mod_eq_of_lt (by omega)]
      simp only [Nat.add_assoc, Nat.add_comm 1]

theorem count_position_fold_eq (c : List Nat) (pre es : List Nat) (h : InRange es c)
    (hlt : es.prod < SIZE_MOD) :
    count_position_fold (pre ++ es) c pre.length es.prod
      = some (offsetRM es c, pre.length + c.length, 1) := by
  have key := count_position_fold_prefix c pre es [] h (by simpa using hlt)
  simpa using key

theorem inRange_take_succ (es c : List Nat) (h : InRange es c) (k : Nat) :
    InRange (es.take k) (c.take k) := by
  induction es generalizing c k with
  | nil =>
    rw [(inRange_nil_iff c).mp h]
    simp [inRange_nil_iff]
  | cons e es ih =>
    cases c with
    | nil => exact absurd h (inRange_cons_nil e es)
    | cons i is =>
      cases k with
      | zero => simp [inRange_nil_iff]
      | succ k =>
        rw [inRange_cons_iff] at h
        simp only [List.take_succ_cons, inRange_cons_iff]
        exact ⟨h.1, ih is h.2 k⟩

variable {T : Type} {dimensions : List Nat}

theorem in_bounds_iff (v : VecND T dimensions) (c : List Nat)
    (hlen : c.length = v._dimensions.length) :
    v.in_bounds c = true ↔ InRange v._dimensions c := by
  have key := in_bounds_fold_iff c [] v._dimensions hlen
  simpa [in_bounds] using key

theorem count_position_invalid_iff (v : VecND T dimensions) (c : List Nat) :
    v.count_position c = .error .invalid_argument ↔ v.in_bounds c = false := by
  unfold count_position
  cases hb : v.in_bounds c
  · simp
  · simp only [Bool.not_true, Bool.false_eq_true, if_false]
    cases count_position_fold v._dimensions c 0 (N_cells dimensions) with
    | none => simp
    | some r => simp

theorem count_position_ok (v : VecND T dimensions) (c : List Nat) (hwf : v.WellFormed)
    (hfit : dimensions.prod < SIZE_MOD) (hc : InRange dimensions c) :
    v.count_position c = .ok (offsetRM dimensions c) := by
  have hd : v._dimensions = dimensions := hwf.2
  have hb : v.in_bounds c = true := by
    rw [in_bounds_iff v c (by rw [hd]; exact hc.1), hd]
    exact hc
  have key := count_position_fold_eq c [] dimensions hc hfit
  simp only [List.nil_append, List.length_nil] at key
  simp [count_position, hb, hd, N_cells_of_lt dimensions hfit, key]

theorem at_ok (v : VecND T dimensions) (c : List Nat) (hwf : v.WellFormed)
    (hfit : dimensions.prod < SIZE_MOD) (hc : InRange dimensions c) :
    v._at c = .ok (offsetRM dimensions c) ∧
      (v.get c).1 = .ok (offsetRM dimensions c) ∧
      ∀ x, v._data[offsetRM dimensions c]? = some x → (v.at c).1 = .ok x := by
  have hlt : offsetRM dimensions c < v._data.length := by
    rw [hwf.1, N_cells_of_lt dimensions hfit]
    exact offsetRM_lt dimensions c hc
  have h1 : v._at c = .ok (offsetRM dimensions c) := by
    simp [_at, count_position_ok v c hwf hfit hc, hlt]
  refine ⟨h1, by simp [get, h1], fun x hx => ?_⟩
  simp [«at», h1, hx]

theorem _at_invalid_iff (v : VecND T dimensions) (c : List Nat) :
    v._at c = .error .invalid_argument ↔ v.in_bounds c = false := by
  rw [← count_position_invalid_iff]
  unfold _at
  cases h : v.count_position c with
  | error e => simp
  | ok pos =>
    by_cases hp : pos < v._data.length <;> simp [hp]

theorem at_invalid_iff (v : VecND T dimensions) (c : List Nat) :
    (v.at c).1 = .error .invalid_argument ↔ v.in_bounds c = false := by
  rw [← _at_invalid_iff]
  unfold «at»
  cases h : v._at c with
  | error e => simp
  | ok pos =>
    simp only []
    split <;> simp

theorem at_snd (v : VecND T dimensions) (c : List Nat) : (v.at c).2 = v := by
  unfold «at»
  split
  · rfl
  · split <;> rfl

theorem get_assign_error (v : VecND T dimensions) (c : List Nat) (x : T) (e : Error)
    (h : (v.get_assign c x).1 = .error e) : (v.get_assign c x).2 = v := by
  unfold get_assign get at h ⊢
  cases h1 : v._at c with
  | error e1 => rfl
  | ok pos => simp [h1] at h

theorem not_inRange_iff (es c : List Nat) (hlen : c.length = es.length) :
    ¬ InRange es c ↔ ∃ k, k < es.length ∧ es.getD k 0 ≤ c.getD k 0 := by
  unfold InRange
  constructor
  · intro h
    by_contra hcon
    apply h
    refine ⟨hlen, fun k hk => ?_⟩
    by_contra hk2
    exact hcon ⟨k, hk, by omega⟩
  · rintro ⟨k, hk, hle⟩ ⟨_, h⟩
    have := h k hk
    omega

theorem fill_loop_succ (n : Nat) (x : T) (data : List T) :
    fill_loop (n + 1) x data = (fill_loop n x data).set n x := by
  simp [fill_loop, List.range_succ, List.foldl_append]

theorem fill_loop_length (n : Nat) (x : T) (data : List T) :
    (fill_loop n x data).length = data.length := by
  induction n with
  | zero => rfl
  | succ n ih => rw [fill_loop_succ, List.length_set, ih]

theorem fill_loop_getElem? (n : Nat) (x : T) (data : List T) :
    ∀ j, j < n → j < data.length → (fill_loop n x data)[j]? = some x := by
  induction n with
  | zero => intro j hj; omega
  | succ n ih =>
    intro j hj hlen
    rw [fill_loop_succ, List.getElem?_set]
    by_cases hnj : n = j
    · subst hnj
      simp [fill_loop_length, hlen]
    · simp only [hnj, if_false]
      exact ih j (by omega) hlen

theorem raw_data_length (dims : List Nat) (raw : Fin (N_cells dims) → T) :
    (raw_data dims raw).length = N_cells dims := by
  simp [raw_data]

theorem fill_ctor_wellFormed (dims : List Nat) (x : T) (raw : Fin (N_cells dims) → T) :
    (fill_ctor dims x raw).WellFormed :=
  ⟨by simp [fill_ctor, fill_loop_length, raw_data_length], rfl⟩

theorem fill_ctor_at (dims : List Nat) (x : T) (raw : Fin (N_cells dims) → T)
    (c : List Nat) (hfit : dims.prod < SIZE_MOD) (hc : InRange dims c) :
    ((fill_ctor dims x raw).at c).1 = .ok x := by
  have hlt : offsetRM dims c < N_cells dims := by
    rw [N_cells_of_lt dims hfit]
    exact offsetRM_lt dims c hc
  refine (at_ok _ c (fill_ctor_wellFormed dims x raw) hfit hc).2.2 x ?_
  exact fill_loop_getElem? _ x _ _ hlt (by rw [raw_data_length]; exact hlt)

/-! ### The enumerator -/

theorem set_append_length (pre : List Nat) (i x : Nat) (is : List Nat) :
    (pre ++ i :: is).set pre.length x = pre ++ x :: is := by
  induction pre with
  | nil => rfl
  | cons p ps ih => simp [ih]

theorem advance_loop_eq (rest : List Nat) :
    ∀ (pre spre srest : List Nat), pre.length = spre.length → rest.length = srest.length →
      MultiIndexIterator.advance_loop (spre ++ srest) rest.length pre.length (pre ++ rest)
        = match advanceSpec srest rest with
          | some r => pre ++ r
          | none => spre ++ srest := by
  induction rest with
  | nil =>
    intro pre spre srest _ h
    have : srest = [] := List.length_eq_zero.mp h.symm
    subst this
    simp [MultiIndexIterator.advance_loop, advanceSpec]
  | cons i is ih =>
    intro pre spre srest hp h
    cases srest with
    | nil => simp at h
    | cons e es =>
      have hl : is.length = es.length := by simpa using h
      have key := ih (pre ++ [0]) (spre ++ [e]) es (by simp [hp]) hl
      simp only [List.append_assoc, List.singleton_append, List.length_append,
        List.length_singleton] at key
      have hs : (spre ++ e :: es).getD pre.length 0 = e := by
        rw [hp]
        exact getD_append_length spre e es
      simp only [List.length_cons, MultiIndexIterator.advance_loop, getD_append_length,
        set_append_length, hs, advanceSpec]
      by_cases hlt : (i + 1) % SIZE_MOD < e
      · simp [hlt]
      · simp only [hlt, if_false, key]
        cases advanceSpec es is <;> simp

theorem advance_indices (sizes idx : List Nat) (h : idx.length = sizes.length) :
    (MultiIndexIterator.advance ⟨sizes, idx⟩).indices_
      = (advanceSpec sizes idx).getD sizes := by
  have key := advance_loop_eq idx [] [] sizes rfl h
  simp only [List.nil_append, List.length_nil] at key
  simp only [MultiIndexIterator.advance]
  rw [← h, key]
  cases advanceSpec sizes idx <;> rfl

theorem unrank_length (sizes : List Nat) : ∀ r, (unrank sizes r).length = sizes.length := by
  induction sizes with
  | nil => intro r; rfl
  | cons e es ih => intro r; simp [unrank, ih]

theorem unrank_zero (sizes : List Nat) : unrank sizes 0 = List.replicate sizes.length 0 := by
  induction sizes with
  | nil => rfl
  | cons e es ih => simp [unrank, ih, List.replicate_succ]

theorem extents_cons_iff (e : Nat) (es : List Nat) :
    Extents (e :: es) ↔ (0 < e ∧ e < SIZE_MOD) ∧ Extents es := by
  simp [Extents]

theorem extents_prod_pos (sizes : List Nat) (h : Extents sizes) : 0 < sizes.prod := by
  induction sizes with
  | nil => simp
  | cons e es ih =>
    rw [extents_cons_iff] at h
    rw [List.prod_cons]
    exact Nat.mul_pos h.1.1 (ih h.2)

theorem advanceSpec_unrank (sizes : List Nat) :
    ∀ r, Extents sizes → r < sizes.prod →
      advanceSpec sizes (unrank sizes r)
        = if r + 1 < sizes.prod then some (unrank sizes (r + 1)) else none := by
  induction sizes with
  | nil =>
    intro r _ hr
    simp at hr
    subst hr
    simp [advanceSpec, unrank]
  | cons e es ih =>
    intro r hext hr
    rw [extents_cons_iff] at hext
    obtain ⟨⟨he0, heM⟩, hes⟩ := hext
    rw [List.prod_cons] at hr ⊢
    have hq : r / e < es.prod := Nat.div_lt_of_lt_mul hr
    have hi : r % e < e := Nat.mod_lt _ he0
    have hdm : e * (r / e) + r % e = r := Nat.div_add_mod r e
    have hmod : (r % e + 1) % SIZE_MOD = r % e + 1 := Nat.mod_eq_of_lt (by omega)
    have hmul : e * (r / e + 1) ≤ e * es.prod := Nat.mul_le_mul_left _ hq
    have hmul2 : e * (r / e + 1) = e * (r / e) + e := by ring
    simp only [unrank, advanceSpec, hmod]
    by_cases hlt : r % e + 1 < e
    · have h1 : (r + 1) % e = r % e + 1 := by
        have : r + 1 = e * (r / e) + (r % e + 1) := by omega
        rw [this, Nat.mul_add_mod, Nat.mod_eq_of_lt hlt]
      have h2 : (r + 1) / e = r / e := by
        have : r + 1 = e * (r / e) + (r % e + 1) := by omega
        rw [this, Nat.mul_add_div he0, Nat.div_eq_of_lt hlt, Nat.add_zero]
      have h3 : r + 1 < e * es.prod := by omega
      simp [hlt, h1, h2, h3]
    · have heq : r + 1 = e * (r / e + 1) := by omega
      have h1 : (r + 1) % e = 0 := by rw [heq, Nat.mul_mod_right]
      have h2 : (r + 1) / e = r / e + 1 := by
        rw [heq, Nat.mul_div_cancel_left _ he0]
      have h3 : r + 1 < e * es.prod ↔ r / e + 1 < es.prod := by
        rw [heq]
        exact Nat.mul_lt_mul_left he0
      simp only [hlt, if_false, ih (r / e) hes hq, h1, h2, h3]
      by_cases hc : r / e + 1 < es.prod <;> simp [hc]

theorem unrank_ne_sizes (sizes : List Nat) (hne : sizes ≠ []) (h : Extents sizes) (r : Nat) :
    unrank sizes r ≠ sizes := by
  cases sizes with
  | nil => exact absurd rfl hne
  | cons e es =>
    rw [extents_cons_iff] at h
    intro hcon
    simp only [unrank, List.cons.injEq] at hcon
    have := Nat.mod_lt r h.1.1
    omega

theorem traverse_from_unrank (sizes : List Nat) (hne : sizes ≠ []) (h : Extents sizes) :
    ∀ n r fuel, r + n = sizes.prod → n < fuel →
      MultiIndexRange.traverse_from ⟨sizes⟩ fuel
          ⟨sizes, if r < sizes.prod then unrank sizes r else sizes⟩
        = some ((List.range' r n).map (unrank sizes)) := by
  intro n
  induction n with
  | zero =>
    intro r fuel hr hf
    cases fuel with
    | zero => omega
    | succ fuel =>
      have : ¬ r < sizes.prod := by omega
      simp [MultiIndexRange.traverse_from, MultiIndexIterator.eq, MultiIndexRange.end_,
        MultiIndexIterator.ctor, this]
  | succ n ih =>
    intro r fuel hr hf
    cases fuel with
    | zero => omega
    | succ fuel =>
      have hlt : r < sizes.prod := by omega
      have hadv : MultiIndexIterator.advance ⟨sizes, unrank sizes r⟩
          = ⟨sizes, if r + 1 < sizes.prod then unrank sizes (r + 1) else sizes⟩ := by
        have hi := advance_indices sizes (unrank sizes r) (unrank_length sizes r)
        rw [advanceSpec_unrank sizes r h hlt] at hi
        have hs : (MultiIndexIterator.advance ⟨sizes, unrank sizes r⟩).sizes_ = sizes := rfl
        cases hadv : MultiIndexIterator.advance ⟨sizes, unrank sizes r⟩ with
        | mk s i =>
          rw [hadv] at hi hs
          simp only at hi hs
          subst hs
          rw [hi]
          by_cases hc : r + 1 < s.prod <;> simp [hc]
      simp only [hlt, if_true, MultiIndexRange.traverse_from, MultiIndexIterator.eq,
        MultiIndexRange.end_, MultiIndexIterator.ctor, unrank_ne_sizes sizes hne h r,
        decide_False, Bool.false_eq_true, if_false, hadv, ih (r + 1) fuel (by omega) (by omega),
        MultiIndexIterator.deref, List.range'_succ, List.map_cons]

theorem traverse_eq (sizes : List Nat) (hne : sizes ≠ []) (h : Extents sizes) (fuel : Nat)
    (hf : sizes.prod < fuel) :
    MultiIndexRange.traverse ⟨sizes⟩ fuel
      = some ((List.range sizes.prod).map (unrank sizes)) := by
  have key := traverse_from_unrank sizes hne h sizes.prod 0 fuel (by omega) hf
  simp only [extents_prod_pos sizes h, if_true, unrank_zero] at key
  rw [List.range_eq_range']
  exact key

theorem unrank_inRange (sizes : List Nat) (h : Extents sizes) :
    ∀ r, InRange sizes (unrank sizes r) := by
  induction sizes with
  | nil => intro r; simp [unrank, inRange_nil_iff]
  | cons e es ih =>
    intro r
    rw [extents_cons_iff] at h
    simp only [unrank, inRange_cons_iff]
    exact ⟨Nat.mod_lt _ h.1.1, ih h.2 _⟩

theorem rankLS_unrank (sizes : List Nat) :
    ∀ r, r < sizes.prod → rankLS sizes (unrank sizes r) = r := by
  induction sizes with
  | nil => intro r hr; simp at hr; simp [rankLS, unrank, hr]
  | cons e es ih =>
    intro r hr
    rw [List.prod_cons] at hr
    simp only [unrank, rankLS, ih (r / e) (Nat.div_lt_of_lt_mul hr)]
    have := Nat.div_add_mod r e
    omega

theorem unrank_rankLS (sizes : List Nat) :
    ∀ c, InRange sizes c → rankLS sizes c < sizes.prod ∧ unrank sizes (rankLS sizes c) = c := by
  induction sizes with
  | nil =>
    intro c hc
    rw [(inRange_nil_iff c).mp hc]
    simp [rankLS, unrank]
  | cons e es ih =>
    intro c hc
    cases c with
    | nil => exact absurd hc (inRange_cons_nil e es)
    | cons i is =>
      rw [inRange_cons_iff] at hc
      obtain ⟨h1, h2⟩ := ih is hc.2
      have he : 0 < e := by omega
      have hmod : (i + e * rankLS es is) % e = i := by
        rw [Nat.add_mul_mod_self_left, Nat.mod_eq_of_lt hc.1]
      have hdiv : (i + e * rankLS es is) / e = rankLS es is := by
        rw [Nat.add_mul_div_left _ _ he, Nat.div_eq_of_lt hc.1, Nat.zero_add]
      refine ⟨?_, ?_⟩
      · have hm : e * (rankLS es is + 1) ≤ e * es.prod := Nat.mul_le_mul_left _ h1
        have hm2 : e * (rankLS es is + 1) = e * rankLS es is + e := by ring
        simp only [rankLS, List.prod_cons]
        omega
      · simp only [rankLS, unrank, hmod, hdiv, h2]

theorem unrank_getD (sizes : List Nat) :
    ∀ r k, k < sizes.length →
      (unrank sizes r).getD k 0 = (r / (sizes.take k).prod) % sizes.getD k 0 := by
  induction sizes with
  | nil => intro r k hk; simp at hk
  | cons e es ih =>
    intro r k hk
    cases k with
    | zero => simp [unrank]
    | succ k =>
      have hk2 : k < es.length := by simpa using hk
      simp only [unrank, List.getD_cons_succ, List.take_succ_cons, List.prod_cons,
        ih (r / e) k hk2, Nat.div_div_eq_div_mul]

/-! ### The generator constructor -/

theorem generator_loop_spec (f : List Nat → T) (idxs : List (List Nat)) :
    ∀ (i : Nat) (data : List T), i + idxs.length ≤ data.length → data.length < SIZE_MOD →
      ∃ out, generator_loop f idxs i data = .ok out ∧ out.length = data.length ∧
        ∀ j, out[j]? = if i ≤ j ∧ j < i + idxs.length then (idxs[j - i]?).map f
          else data[j]? := by
  induction idxs with
  | nil =>
    intro i data _ _
    refine ⟨data, rfl, rfl, fun j => ?_⟩
    have : ¬ (i ≤ j ∧ j < i + ([] : List (List Nat)).length) := by
      simp only [List.length_nil]
      omega
    rw [if_neg this]
  | cons idx rest ih =>
    intro i data hlen hM
    simp only [List.length_cons] at hlen
    have hi : i < data.length := by omega
    have hmod : (i + 1) % SIZE_MOD = i + 1 := Nat.mod_eq_of_lt (by omega)
    obtain ⟨out, h1, h2, h3⟩ := ih (i + 1) (data.set i (f idx))
      (by rw [List.length_set]; omega) (by rw [List.length_set]; exact hM)
    refine ⟨out, ?_, by rw [h2, List.length_set], fun j => ?_⟩
    · simp only [generator_loop, store, hi, if_true, hmod]
      exact h1
    · rw [h3 j]
      by_cases hji : j = i
      · subst hji
        have h4 : ¬ (j + 1 ≤ j ∧ j < j + 1 + rest.length) := by omega
        have h5 : j ≤ j ∧ j < j + (idx :: rest).length := by
          simp only [List.length_cons]
          omega
        rw [if_neg h4, if_pos h5]
        simp [hi]
      · by_cases hin : i + 1 ≤ j ∧ j < i + 1 + rest.length
        · have h5 : i ≤ j ∧ j < i + (idx :: rest).length := by
            simp only [List.length_cons]
            omega
          have h6 : j - i = (j - (i + 1)) + 1 := by omega
          rw [if_pos hin, if_pos h5, h6, List.getElem?_cons_succ]
        · have h5 : ¬ (i ≤ j ∧ j < i + (idx :: rest).length) := by
            simp only [List.length_cons]
            omega
          rw [if_neg hin, if_neg h5, List.getElem?_set]
          simp [Ne.symm hji]

theorem generator_ctor_spec (dims : List Nat) (f : List Nat → T)
    (raw : Fin (N_cells dims) → T) (fuel : Nat) (hne : dims ≠ []) (h : Extents dims)
    (hfit : dims.prod < SIZE_MOD) (hf : dims.prod < fuel) :
    ∃ v : VecND T dims, generator_ctor dims f raw fuel = some (.ok v) ∧ v.WellFormed ∧
      v._data.length = dims.prod ∧
      ∀ j, j < dims.prod → v._data[j]? = some (f (unrank dims j)) := by
  have hlen : (raw_data dims raw).length = dims.prod := by
    rw [raw_data_length, N_cells_of_lt dims hfit]
  obtain ⟨out, h1, h2, h3⟩ := generator_loop_spec f ((List.range dims.prod).map (unrank dims))
    0 (raw_data dims raw) (by simp [hlen]) (by rw [hlen]; exact hfit)
  refine ⟨⟨out, dims⟩, ?_, ⟨?_, rfl⟩, by rw [h2, hlen], fun j hj => ?_⟩
  · simp only [generator_ctor, create_new_range, traverse_eq dims hne h fuel hf, h1]
  · rw [h2, raw_data_length]
  · have h4 := h3 j
    simp only [List.length_map, List.length_range, Nat.zero_add, Nat.zero_le, true_and, hj,
      if_true, Nat.sub_zero] at h4
    rw [h4]
    simp [List.getElem?_range hj]

theorem generator_ctor_at (dims : List Nat) (f : List Nat → T)
    (raw : Fin (N_cells dims) → T) (fuel : Nat) (hne : dims ≠ []) (h : Extents dims)
    (hfit : dims.prod < SIZE_MOD) (hf : dims.prod < fuel) :
    ∃ v : VecND T dims, generator_ctor dims f raw fuel = some (.ok v) ∧ v.WellFormed ∧
      ∀ c, InRange dims c → (v.at c).1 = .ok (f (unrank dims (offsetRM dims c))) := by
  obtain ⟨v, h1, h2, _, h4⟩ := generator_ctor_spec dims f raw fuel hne h hfit hf
  exact ⟨v, h1, h2, fun c hc =>
    (at_ok v c h2 hfit hc).2.2 _ (h4 _ (offsetRM_lt dims c hc))⟩

/-! ### Lemmas for introspection, the sentinel and index safety -/

theorem get_assign_dimensions (v : VecND T dimensions) (c : List Nat) (x : T) :
    (v.get_assign c x).2._dimensions = v._dimensions := by
  unfold get_assign get
  cases v._at c <;> rfl

theorem get_assign_all_dimensions (ws : List (List Nat × T)) :
    ∀ v : VecND T dimensions, (v.get_assign_all ws)._dimensions = v._dimensions := by
  induction ws with
  | nil => intro v; rfl
  | cons w ws ih =>
    intro v
    obtain ⟨c, x⟩ := w
    simp only [get_assign_all]
    rw [ih, get_assign_dimensions]

theorem generator_ctor_dimensions (dims : List Nat) (f : List Nat → T)
    (raw : Fin (N_cells dims) → T) (fuel : Nat) (v : VecND T dims)
    (hv : generator_ctor dims f raw fuel = some (.ok v)) : v._dimensions = dims := by
  unfold generator_ctor at hv
  simp only at hv
  split at hv
  · simp at hv
  · split at hv
    · simp at hv
    · simp only [Option.some.injEq, Except.ok.injEq] at hv
      rw [← hv]

theorem advanceSpec_self (sizes : List Nat) (h : ∀ e ∈ sizes, e + 1 < SIZE_MOD) :
    advanceSpec sizes sizes = none := by
  induction sizes with
  | nil => rfl
  | cons e es ih =>
    have he : e + 1 < SIZE_MOD := h e (List.mem_cons_self e es)
    have hmod : (e + 1) % SIZE_MOD = e + 1 := Nat.mod_eq_of_lt he
    have hnot : ¬ e + 1 < e := by omega
    simp only [advanceSpec, hmod, hnot, if_false,
      ih (fun x hx => h x (List.mem_cons_of_mem e hx)), Option.map_none']

/-! ### Lemmas for the advance step -/

theorem forall_lt_succ_left (n : Nat) (P : Nat → Prop) :
    (∀ k, k < n + 1 → P k) ↔ P 0 ∧ ∀ k, k < n → P (k + 1) := by
  constructor
  · intro h
    exact ⟨h 0 (by omega), fun k hk => h (k + 1) (by omega)⟩
  · rintro ⟨h0, hs⟩ k hk
    cases k with
    | zero => exact h0
    | succ k => exact hs k (by omega)

theorem advanceSpec_none_iff (sizes : List Nat) :
    ∀ c, Extents sizes → InRange sizes c →
      (advanceSpec sizes c = none ↔
        ∀ k, k < sizes.length → c.getD k 0 = sizes.getD k 0 - 1) := by
  induction sizes with
  | nil =>
    intro c _ hc
    rw [(inRange_nil_iff c).mp hc]
    simp [advanceSpec]
  | cons e es ih =>
    intro c hext hc
    cases c with
    | nil => exact absurd hc (inRange_cons_nil e es)
    | cons i is =>
      rw [extents_cons_iff] at hext
      rw [inRange_cons_iff] at hc
      have hmod : (i + 1) % SIZE_MOD = i + 1 := Nat.mod_eq_of_lt (by omega)
      rw [List.length_cons, forall_lt_succ_left]
      simp only [advanceSpec, hmod, List.getD_cons_zero, List.getD_cons_succ]
      by_cases hlt : i + 1 < e
      · simp only [hlt, if_true]
        constructor
        · intro h
          simp at h
        · rintro ⟨h0, _⟩
          omega
      · simp only [hlt, if_false, Option.map_eq_none', ih is hext.2 hc.2]
        constructor
        · intro h
          exact ⟨by omega, h⟩
        · rintro ⟨_, h⟩
          exact h

theorem advanceSpec_first (sizes : List Nat) :
    ∀ c j, Extents sizes → InRange sizes c → j < sizes.length →
      (∀ k, k < j → c.getD k 0 = sizes.getD k 0 - 1) → c.getD j 0 ≠ sizes.getD j 0 - 1 →
      advanceSpec sizes c
        = some (List.replicate j 0 ++ (c.getD j 0 + 1) :: c.drop (j + 1)) := by
  induction sizes with
  | nil => intro c j _ _ hj; simp at hj
  | cons e es ih =>
    intro c j hext hc hj hmax hnot
    cases c with
    | nil => exact absurd hc (inRange_cons_nil e es)
    | cons i is =>
      rw [extents_cons_iff] at hext
      rw [inRange_cons_iff] at hc
      have hmod : (i + 1) % SIZE_MOD = i + 1 := Nat.mod_eq_of_lt (by omega)
      cases j with
      | zero =>
        simp only [List.getD_cons_zero] at hnot
        have hlt : i + 1 < e := by omega
        simp [advanceSpec, hmod, hlt]
      | succ j =>
        have h0 := hmax 0 (by omega)
        simp only [List.getD_cons_zero] at h0
        have hlt : ¬ i + 1 < e := by omega
        have key := ih is j hext.2 hc.2 (by simpa using hj)
          (fun k hk => by simpa using hmax (k + 1) (by omega)) (by simpa using hnot)
        simp only [advanceSpec, hmod, hlt, if_false, key, Option.map_some',
          List.getD_cons_succ, List.drop_succ_cons, List.replicate_succ, List.cons_append]

theorem advanceSpec_inRange (sizes : List Nat) :
    ∀ c r, Extents sizes → InRange sizes c → advanceSpec sizes c = some r →
      InRange sizes r := by
  induction sizes with
  | nil =>
    intro c r _ hc h
    rw [(inRange_nil_iff c).mp hc] at h
    simp [advanceSpec] at h
  | cons e es ih =>
    intro c r hext hc h
    cases c with
    | nil => exact absurd hc (inRange_cons_nil e es)
    | cons i is =>
      rw [extents_cons_iff] at hext
      rw [inRange_cons_iff] at hc
      have hmod : (i + 1) % SIZE_MOD = i + 1 := Nat.mod_eq_of_lt (by omega)
      simp only [advanceSpec, hmod] at h
      by_cases hlt : i + 1 < e
      · simp only [hlt, if_true, Option.some.injEq] at h
        rw [← h, inRange_cons_iff]
        exact ⟨hlt, hc.2⟩
      · simp only [hlt, if_false, Option.map_eq_some'] at h
        obtain ⟨t, ht, rfl⟩ := h
        rw [inRange_cons_iff]
        exact ⟨hext.1.1, ih is t hext.2 hc.2 ht⟩

theorem not_inRange_self (sizes : List Nat) (hne : sizes ≠ []) : ¬ InRange sizes sizes := by
  cases sizes with
  | nil => exact absurd rfl hne
  | cons e es =>
    rw [inRange_cons_iff]
    omega

/-! ### Lemmas for the division guard -/

theorem count_position_fold_isSome (dims c : List Nat) :
    ∀ cnt mul, in_bounds_fold dims c cnt = true →
      ∃ r, count_position_fold dims c cnt mul = some r := by
  induction c with
  | nil => intro cnt mul _; exact ⟨_, rfl⟩
  | cons i is ih =>
    intro cnt mul hb
    simp only [in_bounds_fold, check_bounds] at hb
    by_cases hlt : i < dims.getD cnt 0
    · simp only [hlt, decide_True, if_true] at hb
      have hne : dims.getD cnt 0 ≠ 0 := by omega
      obtain ⟨r, hr⟩ := ih (cnt + 1) (mul / dims.getD cnt 0) hb
      obtain ⟨s, cnt2, mul2⟩ := r
      exact ⟨((mul / dims.getD cnt 0 * i % SIZE_MOD + s) % SIZE_MOD, cnt2, mul2),
        by simp only [count_position_fold, count_pos, hne, if_false, hr]⟩
    · simp only [hlt, decide_False, Bool.false_eq_true, if_false] at hb

theorem count_position_ne_undefined (v : VecND T dimensions) (c : List Nat) :
    v.count_position c ≠ .error .undefined_behaviour := by
  unfold count_position
  cases hb : v.in_bounds c
  · simp
  · obtain ⟨r, hr⟩ := count_position_fold_isSome v._dimensions c 0 (N_cells dimensions) hb
    simp [hr]

/-! ### Lemmas for the storage order of the generator constructor -/

theorem generator_loop_calls_eq (f : List Nat → T) (idxs : List (List Nat)) :
    ∀ (i : Nat) (data out : List T), generator_loop f idxs i data = .ok out →
      generator_loop_calls f idxs i data = .ok (out, idxs) := by
  induction idxs with
  | nil =>
    intro i data out h
    simp only [generator_loop, Except.ok.injEq] at h
    simp only [generator_loop_calls, h]
  | cons idx rest ih =>
    intro i data out h
    simp only [generator_loop] at h
    simp only [generator_loop_calls]
    cases hs : store data i (f idx) with
    | error e => simp [hs] at h
    | ok data1 =>
      simp only [hs] at h
      simp only [ih _ data1 out h]

theorem inRange_replicate_iff (N : Nat) :
    ∀ (D : Nat) (c : List Nat),
      InRange (List.replicate D N) c ↔ c.length = D ∧ ∀ x ∈ c, x < N := by
  intro D
  induction D with
  | zero =>
    intro c
    rw [List.replicate_zero, inRange_nil_iff]
    constructor
    · rintro rfl
      simp
    · rintro ⟨h, _⟩
      exact List.length_eq_zero.mp h
  | succ D ih =>
    intro c
    cases c with
    | nil =>
      constructor
      · intro h
        exact absurd h (inRange_cons_nil N (List.replicate D N))
      · rintro ⟨h, _⟩
        simp at h
    | cons i is =>
      rw [List.replicate_succ, inRange_cons_iff, ih is]
      simp only [List.length_cons, Nat.add_right_cancel_iff, List.mem_cons, forall_eq_or_imp]
      tauto

theorem offsetRM_concat (es : List Nat) :
    ∀ (cs : List Nat) (e l : Nat), cs.length = es.length →
      offsetRM (es ++ [e]) (cs ++ [l]) = offsetRM es cs * e + l := by
  induction es with
  | nil =>
    intro cs e l h
    rw [List.length_eq_zero.mp h]
    simp [offsetRM]
  | cons e0 es ih =>
    intro cs e l h
    cases cs with
    | nil => simp at h
    | cons i cs =>
      have h1 : offsetRM ((e0 :: es) ++ [e]) ((i :: cs) ++ [l])
          = i * (es ++ [e]).prod + offsetRM (es ++ [e]) (cs ++ [l]) := rfl
      have h2 : offsetRM (e0 :: es) (i :: cs) = i * es.prod + offsetRM es cs := rfl
      rw [h1, h2, ih cs e l (by simpa using h), List.prod_append, List.prod_singleton]
      ring

theorem unrank_offsetRM_replicate (N : Nat) :
    ∀ (D : Nat) (c : List Nat), c.length = D → (∀ x ∈ c, x < N) →
      unrank (List.replicate D N) (offsetRM (List.replicate D N) c) = c.reverse := by
  intro D
  induction D with
  | zero =>
    intro c h _
    rw [List.length_eq_zero.mp h]
    rfl
  | succ D ih =>
    intro c h hlt
    rcases List.eq_nil_or_concat c with rfl | ⟨cs, l, rfl⟩
    · simp at h
    · rw [List.concat_eq_append] at h hlt ⊢
      have hcs : cs.length = D := by simpa using h
      have hl : l < N := hlt l (by simp)
      have hoff : offsetRM (List.replicate (D + 1) N) (cs ++ [l])
          = offsetRM (List.replicate D N) cs * N + l := by
        rw [List.replicate_succ', offsetRM_concat _ cs N l (by simp [hcs])]
      have hmod : (offsetRM (List.replicate D N) cs * N + l) % N = l := by
        rw [Nat.mul_comm, Nat.mul_add_mod, Nat.mod_eq_of_lt hl]
      have hdiv : (offsetRM (List.replicate D N) cs * N + l) / N
          = offsetRM (List.replicate D N) cs := by
        rw [Nat.mul_comm, Nat.mul_add_div (by omega), Nat.div_eq_of_lt hl, Nat.add_zero]
      rw [hoff, List.replicate_succ, unrank, hmod, hdiv,
        ih cs hcs (fun x hx => hlt x (by simp [hx])), List.reverse_append]
      rfl

theorem extents_replicate (D N : Nat) (hD : 0 < D) (hN : 0 < N)
    (hfit : (List.replicate D N).prod < SIZE_MOD) : Extents (List.replicate D N) := by
  intro e he
  rw [List.eq_of_mem_replicate he]
  refine ⟨hN, ?_⟩
  have hle : N ≤ (List.replicate D N).prod := by
    rw [List.prod_replicate]
    exact Nat.le_self_pow (by omega) N
  omega

end Aux

/-! ## Bounds-checked access -/

section Access

variable {T : Type} {dimensions : List Nat}

/-- C3 (bounds enforcement): for a coordinate tuple with one component per axis, `at`
and `get` fail with the out-of-range error exactly when some component is at least the
extent of its axis; a failing access (also a failing `get(c) = x`) leaves the array
as it was; and when every component is below its extent, in an array whose cell count
fits `size_t`, both accessors return (a value, and a slot inside the buffer). -/
theorem bounds_enforcement (v : VecND T dimensions) (c : List Nat)
    (hlen : c.length = v._dimensions.length) :
    ((v.at c).1 = .error .invalid_argument ↔
        ∃ k, k < v._dimensions.length ∧ v._dimensions.getD k 0 ≤ c.getD k 0) ∧
    ((v.get c).1 = .error .invalid_argument ↔
        ∃ k, k < v._dimensions.length ∧ v._dimensions.getD k 0 ≤ c.getD k 0) ∧
    (∀ e, (v.at c).1 = .error e → (v.at c).2 = v) ∧
    (∀ e, (v.get c).1 = .error e → (v.get c).2 = v) ∧
    (∀ x e, (v.get_assign c x).1 = .error e → (v.get_assign c x).2 = v) ∧
    (v.WellFormed → dimensions.prod < SIZE_MOD →
      (∀ k, k < v._dimensions.length → c.getD k 0 < v._dimensions.getD k 0) →
        (∃ x, (v.at c).1 = .ok x) ∧ ∃ s, s < v._data.length ∧ (v.get c).1 = .ok s) := by
  have hiff : v.in_bounds c = false ↔
      ∃ k, k < v._dimensions.length ∧ v._dimensions.getD k 0 ≤ c.getD k 0 := by
    rw [← not_inRange_iff v._dimensions c hlen, ← in_bounds_iff v c hlen]
    simp
  refine ⟨?_, ?_, fun _ _ => at_snd v c, fun _ _ => rfl,
    fun x e h => get_assign_error v c x e h, ?_⟩
  · rw [at_invalid_iff, hiff]
  · have : (v.get c).1 = v._at c := rfl
    rw [this, _at_invalid_iff, hiff]
  · intro hwf hfit hall
    have hc : InRange dimensions c := by
      have hd := hwf.2
      rw [hd] at hlen hall
      exact ⟨hlen, hall⟩
    have hlt : offsetRM dimensions c < v._data.length := by
      rw [hwf.1, N_cells_of_lt dimensions hfit]
      exact offsetRM_lt dimensions c hc
    obtain ⟨_, h2, h3⟩ := at_ok v c hwf hfit hc
    refine ⟨⟨v._data[offsetRM dimensions c], h3 _ ?_⟩, offsetRM dimensions c, hlt, h2⟩
    exact List.getElem?_eq_getElem hlt

/-- Witness of `bounds_enforcement`: the 2 x 2 array of zeros at the coordinate (2, 0). -/
theorem bounds_enforcement_witness :
    ((⟨[0, 0, 0, 0], [2, 2]⟩ : VecND Nat [2, 2]).at [2, 0]).1 = .error .invalid_argument :=
  ((bounds_enforcement (⟨[0, 0, 0, 0], [2, 2]⟩ : VecND Nat [2, 2]) [2, 0] rfl).1).mpr
    ⟨0, by decide, by decide⟩

/-- C4 (write/read round trip): in an array whose cell count fits `size_t`, for an
in-range coordinate tuple `c` and a value `x`, the assignment `get(c) = x` succeeds
and `at(c)` then reads `x`. -/
theorem write_read_round_trip (v : VecND T dimensions) (c : List Nat) (x : T)
    (hwf : v.WellFormed) (hfit : dimensions.prod < SIZE_MOD) (hc : InRange dimensions c) :
    (v.get_assign c x).1 = .ok () ∧ ((v.get_assign c x).2.at c).1 = .ok x := by
  obtain ⟨h1, _, _⟩ := at_ok v c hwf hfit hc
  have hlt : offsetRM dimensions c < v._data.length := by
    rw [hwf.1, N_cells_of_lt dimensions hfit]
    exact offsetRM_lt dimensions c hc
  have hga : v.get_assign c x
      = (.ok (), { v with _data := v._data.set (offsetRM dimensions c) x }) := by
    simp [get_assign, get, h1]
  rw [hga]
  refine ⟨rfl, ?_⟩
  have hwf2 : WellFormed
      ({ v with _data := v._data.set (offsetRM dimensions c) x } : VecND T dimensions) :=
    ⟨by simpa using hwf.1, hwf.2⟩
  refine (at_ok _ c hwf2 hfit hc).2.2 x ?_
  simp [hlt]

/-- Witness of `write_read_round_trip`: writing 9 at (1, 2) in a 2 x 3 array. -/
theorem write_read_round_trip_witness :
    (((⟨[0, 0, 0, 0, 0, 0], [2, 3]⟩ : VecND Nat [2, 3]).get_assign [1, 2] 9).2.at
      [1, 2]).1 = .ok 9 :=
  (write_read_round_trip (⟨[0, 0, 0, 0, 0, 0], [2, 3]⟩ : VecND Nat [2, 3]) [1, 2] 9
    ⟨by decide, rfl⟩ (by decide) ⟨rfl, by decide⟩).2

/-- C5 (no aliasing): in an array whose cell count fits `size_t`, two distinct in-range
coordinate tuples are mapped by `count_position` to different slots, and the assignment
`get(c) = x` does not change what `at(d)` reads. -/
theorem no_aliasing (v : VecND T dimensions) (c d : List Nat) (x : T)
    (hwf : v.WellFormed) (hfit : dimensions.prod < SIZE_MOD)
    (hc : InRange dimensions c) (hd : InRange dimensions d) (hne : c ≠ d) :
    (∃ p q, v.count_position c = .ok p ∧ v.count_position d = .ok q ∧ p ≠ q) ∧
    ((v.get_assign c x).2.at d).1 = (v.at d).1 := by
  have hpq : offsetRM dimensions c ≠ offsetRM dimensions d :=
    fun h => hne (offsetRM_inj dimensions c d hc hd h)
  refine ⟨⟨_, _, count_position_ok v c hwf hfit hc, count_position_ok v d hwf hfit hd, hpq⟩, ?_⟩
  obtain ⟨h1, _, _⟩ := at_ok v c hwf hfit hc
  have hlt : offsetRM dimensions d < v._data.length := by
    rw [hwf.1, N_cells_of_lt dimensions hfit]
    exact offsetRM_lt dimensions d hd
  have hga : v.get_assign c x
      = (.ok (), { v with _data := v._data.set (offsetRM dimensions c) x }) := by
    simp [get_assign, get, h1]
  rw [hga]
  have hwf2 : WellFormed
      ({ v with _data := v._data.set (offsetRM dimensions c) x } : VecND T dimensions) :=
    ⟨by simpa using hwf.1, hwf.2⟩
  have hget : v._data[offsetRM dimensions d]? = some (v._data[offsetRM dimensions d]) :=
    List.getElem?_eq_getElem hlt
  rw [(at_ok v d hwf hfit hd).2.2 _ hget]
  refine (at_ok _ d hwf2 hfit hd).2.2 _ ?_
  simp [List.getElem?_set, hpq, hget]

/-- Witness of `no_aliasing`: writing at (0, 1) of a 2 x 3 array and reading (1, 0). -/
theorem no_aliasing_witness :
    (((⟨[0, 1, 2, 3, 4, 5], [2, 3]⟩ : VecND Nat [2, 3]).get_assign [0, 1] 9).2.at
      [1, 0]).1 = ((⟨[0, 1, 2, 3, 4, 5], [2, 3]⟩ : VecND Nat [2, 3]).at [1, 0]).1 :=
  (no_aliasing (⟨[0, 1, 2, 3, 4, 5], [2, 3]⟩ : VecND Nat [2, 3]) [0, 1] [1, 0] 9
    ⟨by decide, rfl⟩ (by decide) ⟨rfl, by decide⟩ ⟨rfl, by decide⟩ (by decide)).2

/-- C6 (offset mapping): in an array whose cell count fits `size_t`, for an in-range
coordinate tuple, `count_position` returns the row-major offset, the sum over the axes
`k` of `i_k` times the product of the extents after `k`; and after the fold has
processed the axes `0..k`, its counter is `k + 1` and its running divisor, started at
`N_cells`, is the product of the extents of the axes strictly after `k`. -/
theorem offset_mapping (v : VecND T dimensions) (c : List Nat)
    (hwf : v.WellFormed) (hfit : dimensions.prod < SIZE_MOD) (hc : InRange dimensions c) :
    v.count_position c = .ok (rowMajorOffset dimensions c) ∧
    ∀ k, k < dimensions.length →
      ∃ s, count_position_fold v._dimensions (c.take (k + 1)) 0 (N_cells dimensions)
        = some (s, k + 1, (dimensions.drop (k + 1)).prod) := by
  refine ⟨?_, fun k hk => ?_⟩
  · rw [count_position_ok v c hwf hfit hc, offsetRM_eq_rowMajorOffset dimensions c hc.1]
  · have hsplit : dimensions.take (k + 1) ++ dimensions.drop (k + 1) = dimensions :=
      List.take_append_drop _ _
    have key := count_position_fold_prefix (c.take (k + 1)) [] (dimensions.take (k + 1))
      (dimensions.drop (k + 1)) (inRange_take_succ dimensions c hc (k + 1))
      (by rw [hsplit]; exact hfit)
    have hlen : (c.take (k + 1)).length = k + 1 := by
      rw [List.length_take, hc.1]
      omega
    rw [hsplit, List.nil_append, List.length_nil, hlen, Nat.zero_add] at key
    rw [hwf.2, N_cells_of_lt dimensions hfit, key]
    exact ⟨_, rfl⟩

/-- Witness of `offset_mapping`: the coordinate (1, 2) of a 2 x 3 array has offset 5. -/
theorem offset_mapping_witness :
    (⟨[0, 0, 0, 0, 0, 0], [2, 3]⟩ : VecND Nat [2, 3]).count_position [1, 2]
      = .ok (rowMajorOffset [2, 3] [1, 2]) :=
  (offset_mapping (⟨[0, 0, 0, 0, 0, 0], [2, 3]⟩ : VecND Nat [2, 3]) [1, 2]
    ⟨by decide, rfl⟩ (by decide) ⟨rfl, by decide⟩).1

/-- C16 (accessor index safety): in an array whose cell count fits `size_t`, for a
coordinate tuple with one component per axis that passes the bounds check,
`count_position` returns an offset strictly below `cells_number()`, which is the
product of the extents, so the slot `_at` refers to is inside the buffer. -/
theorem accessor_index_safety (v : VecND T dimensions) (c : List Nat)
    (hwf : v.WellFormed) (hfit : dimensions.prod < SIZE_MOD)
    (hlen : c.length = dimensions.length) (hb : v.in_bounds c = true) :
    ∃ pos, v.count_position c = .ok pos ∧ pos < v.cells_number ∧
      v.cells_number = dimensions.prod ∧ pos < v._data.length ∧ v._at c = .ok pos := by
  have hc : InRange dimensions c := by
    have h := (in_bounds_iff v c (by rw [hwf.2]; exact hlen)).mp hb
    rw [hwf.2] at h
    exact h
  have hcells : v.cells_number = dimensions.prod := N_cells_of_lt dimensions hfit
  have hlt := offsetRM_lt dimensions c hc
  refine ⟨offsetRM dimensions c, count_position_ok v c hwf hfit hc, by rw [hcells]; exact hlt,
    hcells, ?_, (at_ok v c hwf hfit hc).1⟩
  rw [hwf.1, N_cells_of_lt dimensions hfit]
  exact hlt

/-- Witness of `accessor_index_safety`: the coordinate (1, 2) of a 2 x 3 array. -/
theorem accessor_index_safety_witness :
    ∃ pos, (⟨[0, 0, 0, 0, 0, 0], [2, 3]⟩ : VecND Nat [2, 3]).count_position [1, 2] = .ok pos ∧
      pos < (⟨[0, 0, 0, 0, 0, 0], [2, 3]⟩ : VecND Nat [2, 3]).cells_number :=
  (accessor_index_safety (⟨[0, 0, 0, 0, 0, 0], [2, 3]⟩ : VecND Nat [2, 3]) [1, 2]
    ⟨by decide, rfl⟩ (by decide) rfl (by decide)).imp (fun _ hp => ⟨hp.1, hp.2.1⟩)

/-- C18 (division guard): for every array (zero extents included) and every coordinate
tuple with one component per axis, `count_position` never divides the running divisor by
a zero extent (it never ends in the undefined division); when some extent is 0 the bounds
check fails and the access raises the out-of-range error; and in an array whose cell
count fits `size_t`, under a passing bounds check the fold reaches every axis `k` with
counter `k` and a running divisor that is a multiple of the nonzero extent `e_k` it is
divided by next. -/
theorem division_guard (v : VecND T dimensions) (c : List Nat)
    (hlen : c.length = v._dimensions.length) :
    v.count_position c ≠ .error .undefined_behaviour ∧
    ((∃ k, k < v._dimensions.length ∧ v._dimensions.getD k 0 = 0) →
      v.in_bounds c = false ∧ v.count_position c = .error .invalid_argument) ∧
    (v.WellFormed → dimensions.prod < SIZE_MOD → v.in_bounds c = true →
      ∀ k, k < dimensions.length →
        ∃ s m, count_position_fold v._dimensions (c.take k) 0 (N_cells dimensions)
            = some (s, k, m) ∧
          v._dimensions.getD k 0 ≠ 0 ∧ v._dimensions.getD k 0 ∣ m) := by
  refine ⟨count_position_ne_undefined v c, ?_, ?_⟩
  · rintro ⟨k, hk, hz⟩
    have hb : v.in_bounds c = false := by
      have hnot : ¬ InRange v._dimensions c :=
        (not_inRange_iff v._dimensions c hlen).mpr ⟨k, hk, by omega⟩
      rw [← in_bounds_iff v c hlen] at hnot
      simpa using hnot
    exact ⟨hb, (count_position_invalid_iff v c).mpr hb⟩
  · intro hwf hfit hb k hk
    have hd : v._dimensions = dimensions := hwf.2
    rw [hd] at hlen
    have hc : InRange dimensions c := by
      have h := (in_bounds_iff v c (by rw [hd]; exact hlen)).mp hb
      rw [hd] at h
      exact h
    have hsplit : dimensions.take k ++ dimensions.drop k = dimensions :=
      List.take_append_drop _ _
    have key := count_position_fold_prefix (c.take k) [] (dimensions.take k)
      (dimensions.drop k) (inRange_take_succ dimensions c hc k) (by rw [hsplit]; exact hfit)
    have hl : (c.take k).length = k := by
      rw [List.length_take, hlen]
      omega
    rw [hsplit, List.nil_append, List.length_nil, hl, Nat.zero_add] at key
    rw [hd, N_cells_of_lt dimensions hfit, key]
    refine ⟨_, _, rfl, ?_, ?_⟩
    · have := hc.2 k hk
      omega
    · rw [List.drop_eq_getElem_cons hk, List.prod_cons, List.getD_eq_getElem _ _ hk]
      exact Dvd.intro _ rfl

/-- Witness of `division_guard`: a 2 x 0 array accessed at (1, 0). -/
theorem division_guard_witness :
    (⟨[], [2, 0]⟩ : VecND Nat [2, 0]).count_position [1, 0] = .error .invalid_argument :=
  ((division_guard (⟨[], [2, 0]⟩ : VecND Nat [2, 0]) [1, 0] rfl).2.1
    ⟨1, by decide, by decide⟩).2

end Access

/-! ## Construction -/

section Construction

variable {T : Type}

/-- C10 (default fill): when the cell count fits `size_t`, the default-constructed
array reads the default value of the element type at every in-range coordinate tuple,
whatever the buffer held before the constructor ran. -/
theorem default_fill [Inhabited T] (dims : List Nat) (raw : Fin (N_cells dims) → T)
    (c : List Nat) (hfit : dims.prod < SIZE_MOD) (hc : InRange dims c) :
    ((default_ctor dims raw).at c).1 = .ok default :=
  fill_ctor_at dims default raw c hfit hc

/-- Witness of `default_fill`: a 3 x 3 x 3 array of naturals read at (2, 1, 0). -/
theorem default_fill_witness :
    ((default_ctor [3, 3, 3] (fun _ => (7 : Nat))).at [2, 1, 0]).1 = .ok 0 :=
  default_fill [3, 3, 3] (fun _ => (7 : Nat)) [2, 1, 0] (by decide) ⟨rfl, by decide⟩

/-- C1 (generator read-back), evaluated on the code: for the extents (3, 3, 3) and the
generator `f(x, y, z) = x`, the generator-constructed array reads 1 at the coordinate
(0, 0, 1), while `f(0, 0, 1) = 0`. -/
theorem generator_readback_fails :
    ∃ v : VecND Nat [3, 3, 3],
      generator_ctor [3, 3, 3] first_component (fun _ => 0) 28 = some (.ok v) ∧
      (v.at [0, 0, 1]).1 = .ok 1 ∧ first_component [0, 0, 1] = 0 := by
  obtain ⟨v, h1, _, h3⟩ := generator_ctor_at [3, 3, 3] first_component (fun _ => 0) 28
    (by decide) (by unfold Extents; decide) (by decide) (by decide)
  exact ⟨v, h1, h3 [0, 0, 1] ⟨rfl, by decide⟩, rfl⟩

/-- C2 (sample scenario): for the extents (3, 3, 3) and the generator
`f(x, y, z) = x * y * z`, the generator constructor returns an array in which `at(x, y, z)`
reads `x * y * z` for all `x, y, z` below 3, in particular 8 at (2, 2, 2) and 0 at
(0, 1, 2); its `cells_number()` is 27 and its `sizes()` is (3, 3, 3). -/
theorem sample_scenario (raw : Fin (N_cells [3, 3, 3]) → Nat) (fuel : Nat)
    (hf : 27 < fuel) :
    ∃ v : VecND Nat [3, 3, 3],
      generator_ctor [3, 3, 3] test_f raw fuel = some (.ok v) ∧
      (∀ x y z, x < 3 → y < 3 → z < 3 → (v.at [x, y, z]).1 = .ok (x * y * z)) ∧
      (v.at [2, 2, 2]).1 = .ok 8 ∧ (v.at [0, 1, 2]).1 = .ok 0 ∧
      v.cells_number = 27 ∧ v.sizes = [3, 3, 3] := by
  obtain ⟨v, h1, h2, h3⟩ := generator_ctor_at [3, 3, 3] test_f raw fuel
    (by decide) (by unfold Extents; decide) (by decide) hf
  have hval : ∀ x, x < 3 → ∀ y, y < 3 → ∀ z, z < 3 →
      test_f (unrank [3, 3, 3] (offsetRM [3, 3, 3] [x, y, z])) = x * y * z := by
    decide
  have hall : ∀ x y z, x < 3 → y < 3 → z < 3 → (v.at [x, y, z]).1 = .ok (x * y * z) := by
    intro x y z hx hy hz
    have hc : InRange [3, 3, 3] [x, y, z] := by
      simp [inRange_cons_iff, inRange_nil_iff, hx, hy, hz]
    rw [h3 [x, y, z] hc, hval x hx y hy z hz]
  exact ⟨v, h1, hall, hall 2 2 2 (by decide) (by decide) (by decide),
    hall 0 1 2 (by decide) (by decide) (by decide), rfl, h2.2⟩

/-- Witness of `sample_scenario`: a buffer of zeros before construction and fuel 28. -/
theorem sample_scenario_witness :
    ∃ v : VecND Nat [3, 3, 3],
      generator_ctor [3, 3, 3] test_f (fun _ => 0) 28 = some (.ok v) ∧
      (v.at [2, 2, 2]).1 = .ok 8 :=
  (sample_scenario (fun _ => 0) 28 (by decide)).imp (fun _ hv => ⟨hv.1, hv.2.2.1⟩)

/-- C11 (value fill): when the cell count fits `size_t`, the fill-constructed array
`VecND(v)` reads exactly `v` at every in-range coordinate tuple, whatever the buffer
held before the constructor ran. -/
theorem value_fill (dims : List Nat) (x : T) (raw : Fin (N_cells dims) → T)
    (c : List Nat) (hfit : dims.prod < SIZE_MOD) (hc : InRange dims c) :
    ((fill_ctor dims x raw).at c).1 = .ok x :=
  fill_ctor_at dims x raw c hfit hc

/-- Witness of `value_fill`: a 2 x 2 array filled with 4 and read at (1, 1). -/
theorem value_fill_witness :
    ((fill_ctor [2, 2] (4 : Nat) (fun _ => 7)).at [1, 1]).1 = .ok 4 :=
  value_fill [2, 2] (4 : Nat) (fun _ => 7) [1, 1] (by decide) ⟨rfl, by decide⟩

/-- C12 (introspection): when the cell count fits `size_t`, for an array returned by
the default, the fill or the generator constructor, and after any sequence of
assignments through `get`, `sizes()` is the declared extents tuple and `cells_number()`
is the product of the extents. -/
theorem introspection [Inhabited T] (dims : List Nat) (hfit : dims.prod < SIZE_MOD)
    (v : VecND T dims)
    (hv : (∃ raw, v = default_ctor dims raw) ∨ (∃ x raw, v = fill_ctor dims x raw) ∨
      (∃ f raw fuel, generator_ctor dims f raw fuel = some (.ok v)))
    (ws : List (List Nat × T)) :
    (v.get_assign_all ws).sizes = dims ∧ (v.get_assign_all ws).cells_number = dims.prod := by
  refine ⟨?_, N_cells_of_lt dims hfit⟩
  have hd : v._dimensions = dims := by
    rcases hv with ⟨raw, rfl⟩ | ⟨x, raw, rfl⟩ | ⟨f, raw, fuel, h⟩
    · rfl
    · rfl
    · exact generator_ctor_dimensions dims f raw fuel v h
  simp only [sizes]
  rw [get_assign_all_dimensions, hd]

/-- Witness of `introspection`: a filled 2 x 2 array after one good and one failing
assignment. -/
theorem introspection_witness :
    ((fill_ctor [2, 2] (4 : Nat) (fun _ => 7)).get_assign_all
        [([0, 1], 5), ([2, 0], 6)]).sizes = [2, 2] ∧
    ((fill_ctor [2, 2] (4 : Nat) (fun _ => 7)).get_assign_all
        [([0, 1], 5), ([2, 0], 6)]).cells_number = [2, 2].prod :=
  introspection [2, 2] (by decide) (fill_ctor [2, 2] (4 : Nat) (fun _ => 7))
    (Or.inr (Or.inl ⟨4, fun _ => 7, rfl⟩)) [([0, 1], 5), ([2, 0], 6)]

/-- C13 (generator storage order): for a non-empty tuple of positive extents whose
product fits `size_t`, the generator constructor calls `f` once for each tuple the
enumerator yields, in the order they are yielded (the record of its calls is the list of
yielded tuples), and the buffer of the array it returns holds at slot `i` the value of
`f` at the `i`-th yielded tuple, one slot per tuple. -/
theorem generator_storage_order (dims : List Nat) (f : List Nat → T)
    (raw : Fin (N_cells dims) → T) (fuel : Nat) (hne : dims ≠ []) (h : Extents dims)
    (hfit : dims.prod < SIZE_MOD) (hf : dims.prod < fuel) :
    ∃ (tuples : List (List Nat)) (v : VecND T dims),
      MultiIndexRange.traverse ⟨dims⟩ fuel = some tuples ∧
      generator_ctor_calls dims f raw fuel = some (.ok (v, tuples)) ∧
      generator_ctor dims f raw fuel = some (.ok v) ∧
      v._data.length = tuples.length ∧
      ∀ (i : Nat) (t : List Nat), tuples[i]? = some t → v._data[i]? = some (f t) := by
  have hlen : (raw_data dims raw).length = dims.prod := by
    rw [raw_data_length, N_cells_of_lt dims hfit]
  obtain ⟨out, h1, h2, h3⟩ := generator_loop_spec f ((List.range dims.prod).map (unrank dims))
    0 (raw_data dims raw) (by simp [hlen]) (by rw [hlen]; exact hfit)
  refine ⟨(List.range dims.prod).map (unrank dims), ⟨out, dims⟩,
    traverse_eq dims hne h fuel hf, ?_, ?_, by simp [h2, hlen], fun i t ht => ?_⟩
  · simp only [generator_ctor_calls, create_new_range, traverse_eq dims hne h fuel hf,
      generator_loop_calls_eq f _ 0 _ out h1]
  · simp only [generator_ctor, create_new_range, traverse_eq dims hne h fuel hf, h1]
  · have h4 := h3 i
    have hi : i < dims.prod := by
      have := (List.getElem?_eq_some_iff.mp ht).1
      simpa using this
    simp only [List.length_map, List.length_range, Nat.zero_add, Nat.zero_le, true_and, hi,
      if_true, Nat.sub_zero, ht, Option.map_some'] at h4
    exact h4

/-- Witness of `generator_storage_order`: the extents (2, 3), where slot 1 holds the
value of `f` at the second yielded tuple (1, 0). -/
theorem generator_storage_order_witness :
    ∃ (tuples : List (List Nat)) (v : VecND (List Nat) [2, 3]),
      MultiIndexRange.traverse ⟨[2, 3]⟩ 7 = some tuples ∧
      generator_ctor_calls [2, 3] (fun idx => idx) (fun _ => []) 7 = some (.ok (v, tuples)) ∧
      v._data.length = tuples.length :=
  (generator_storage_order [2, 3] (fun idx => idx) (fun _ => []) 7 (by decide)
    (by unfold Extents; decide) (by decide) (by decide)).imp
    (fun _ ht => ht.imp (fun _ hv => ⟨hv.1, hv.2.1, hv.2.2.2.1⟩))

/-- C15 (generator read-back under uniform extents): for `D >= 1` axes of the same
extent `N > 0` (with `N ^ D` fitting `size_t`) and every `f`, the generator-constructed
array reads at an in-range coordinate `c` the value of `f` at `c` with its components
reversed. -/
theorem generator_readback_uniform (D N : Nat) (f : List Nat → T)
    (raw : Fin (N_cells (List.replicate D N)) → T) (fuel : Nat) (hD : 0 < D) (hN : 0 < N)
    (hfit : (List.replicate D N).prod < SIZE_MOD)
    (hf : (List.replicate D N).prod < fuel) :
    ∃ v : VecND T (List.replicate D N),
      generator_ctor (List.replicate D N) f raw fuel = some (.ok v) ∧
      ∀ c, InRange (List.replicate D N) c → (v.at c).1 = .ok (f c.reverse) := by
  have hne : List.replicate D N ≠ [] := by
    intro hcon
    have := congrArg List.length hcon
    simp at this
    omega
  obtain ⟨v, h1, _, h3⟩ := generator_ctor_at (List.replicate D N) f raw fuel hne
    (extents_replicate D N hD hN hfit) hfit hf
  refine ⟨v, h1, fun c hc => ?_⟩
  have hc2 := (inRange_replicate_iff N D c).mp hc
  rw [h3 c hc, unrank_offsetRM_replicate N D c hc2.1 hc2.2]

/-- Witness of `generator_readback_uniform`: three axes of extent 3 and the generator
that returns its first coordinate component, read at (0, 0, 1). -/
theorem generator_readback_uniform_witness :
    ∃ v : VecND Nat (List.replicate 3 3),
      generator_ctor (List.replicate 3 3) first_component (fun _ => 0) 28 = some (.ok v) ∧
      (v.at [0, 0, 1]).1 = .ok (first_component [1, 0, 0]) :=
  (generator_readback_uniform 3 3 first_component (fun _ => 0) 28 (by decide) (by decide)
    (by decide) (by decide)).imp (fun _ hv => ⟨hv.1, hv.2 [0, 0, 1] ⟨rfl, by decide⟩⟩)

/-- C17 (generator store safety), evaluated on the code: for the extents (0, 2) the
buffer has `N_cells = 0` elements while the enumerator yields two tuples, so the first
store of the generator constructor, at slot 0, is outside the buffer. -/
theorem generator_store_out_of_buffer :
    N_cells [0, 2] = 0 ∧
    (MultiIndexRange.mk [0, 2]).traverse 3 = some [[0, 0], [0, 1]] ∧
    store ([] : List Nat) 0 (first_component [0, 0]) = .error .undefined_behaviour ∧
    generator_ctor [0, 2] first_component (fun _ => 0) 3
      = some (.error .undefined_behaviour) :=
  ⟨by decide, by decide, rfl, rfl⟩

end Construction

/-! ## Enumeration -/

section Enumeration

/-- C7 (enumeration completeness): for a non-empty tuple of positive extents, the
traversal from `begin` by `++` until `end` ends (with any fuel above the product of the
extents) and yields exactly `product(extents)` tuples; each is in range, they are
pairwise distinct, and every in-range tuple is among them. -/
theorem enumeration_complete (sizes : List Nat) (hne : sizes ≠ []) (h : Extents sizes) :
    ∃ tuples : List (List Nat),
      (∀ fuel, sizes.prod < fuel → MultiIndexRange.traverse ⟨sizes⟩ fuel = some tuples) ∧
      tuples.length = sizes.prod ∧
      (∀ t ∈ tuples, InRange sizes t) ∧
      tuples.Nodup ∧
      (∀ c, InRange sizes c → c ∈ tuples) := by
  refine ⟨(List.range sizes.prod).map (unrank sizes),
    fun fuel hf => traverse_eq sizes hne h fuel hf, by simp, ?_, ?_, ?_⟩
  · intro t ht
    obtain ⟨r, _, rfl⟩ := List.mem_map.mp ht
    exact unrank_inRange sizes h r
  · refine List.Nodup.map_on ?_ (List.nodup_range _)
    intro x hx y hy hxy
    rw [← rankLS_unrank sizes x (List.mem_range.mp hx),
      ← rankLS_unrank sizes y (List.mem_range.mp hy), hxy]
  · intro c hc
    obtain ⟨h1, h2⟩ := unrank_rankLS sizes c hc
    exact List.mem_map.mpr ⟨rankLS sizes c, List.mem_range.mpr h1, h2⟩

/-- Witness of `enumeration_complete`: the extents (2, 3). -/
theorem enumeration_complete_witness :
    ∃ tuples : List (List Nat),
      MultiIndexRange.traverse ⟨[2, 3]⟩ 7 = some tuples ∧ tuples.length = 6 :=
  (enumeration_complete [2, 3] (by decide) (by unfold Extents; decide)).imp
    (fun _ ht => ⟨ht.1 7 (by decide), ht.2.1⟩)

/-- C8 (odometer order): for a non-empty tuple of positive extents and every rank `r`
below the product of the extents, the `r`-th tuple the traversal yields (from 0) has on
axis `k` the component `(r / (product of e_j for j < k)) mod e_k`. -/
theorem odometer_order (sizes : List Nat) (hne : sizes ≠ []) (h : Extents sizes)
    (fuel : Nat) (hf : sizes.prod < fuel) :
    ∃ tuples : List (List Nat),
      MultiIndexRange.traverse ⟨sizes⟩ fuel = some tuples ∧
      ∀ r, r < sizes.prod → ∃ t, tuples[r]? = some t ∧
        ∀ k, k < sizes.length →
          t.getD k 0 = (r / (sizes.take k).prod) % sizes.getD k 0 := by
  refine ⟨(List.range sizes.prod).map (unrank sizes), traverse_eq sizes hne h fuel hf,
    fun r hr => ⟨unrank sizes r, ?_, fun k hk => unrank_getD sizes r k hk⟩⟩
  simp [List.getElem?_range hr]

/-- Witness of `odometer_order`: the extents (2, 3) with fuel 7. -/
theorem odometer_order_witness :
    ∃ tuples : List (List Nat),
      MultiIndexRange.traverse ⟨[2, 3]⟩ 7 = some tuples ∧
      ∃ t, tuples[3]? = some t ∧ t.getD 1 0 = (3 / ([2, 3].take 1).prod) % [2, 3].getD 1 0 :=
  (odometer_order [2, 3] (by decide) (by unfold Extents; decide) 7 (by decide)).imp
    (fun _ ht => ⟨ht.1, (ht.2 3 (by decide)).imp (fun _ hk => ⟨hk.1, hk.2 1 (by decide)⟩)⟩)

theorem begin_eq_end_iff (sizes : List Nat) :
    (MultiIndexRange.mk sizes).begin.eq (MultiIndexRange.mk sizes).end_ = true
      ↔ ∀ e ∈ sizes, e = 0 := by
  simp only [MultiIndexIterator.eq, MultiIndexRange.begin, MultiIndexRange.end_,
    MultiIndexIterator.ctor, decide_eq_true_eq, Bool.false_eq_true, if_false, if_true]
  constructor
  · intro h
    exact (List.eq_replicate_iff.mp h.symm).2
  · intro h
    exact (List.eq_replicate_iff.mpr ⟨rfl, h⟩).symm

/-- C9 (zero-extent enumeration), evaluated on the code: for the extents (0, 2) the
iterator `begin` is (0, 0) and differs from `end`, which is (0, 2), and the traversal
yields the two tuples (0, 0) and (0, 1). -/
theorem zero_extent_begin_ne_end :
    (MultiIndexRange.mk [0, 2]).begin.deref = [0, 0] ∧
    (MultiIndexRange.mk [0, 2]).end_.deref = [0, 2] ∧
    (MultiIndexRange.mk [0, 2]).begin.eq (MultiIndexRange.mk [0, 2]).end_ = false ∧
    (MultiIndexRange.mk [0, 2]).traverse 3 = some [[0, 0], [0, 1]] := by
  decide

/-- C19 (terminal sentinel is absorbing): when every extent is below the largest
`size_t` value, `++` applied to the iterator `end` leaves it at the terminal sentinel, so
it still compares equal to `end`. -/
theorem sentinel_absorbing (sizes : List Nat) (h : ∀ e ∈ sizes, e + 1 < SIZE_MOD) :
    (MultiIndexRange.mk sizes).end_.advance.deref = sizes ∧
    (MultiIndexRange.mk sizes).end_.advance.eq (MultiIndexRange.mk sizes).end_ = true := by
  have key : (MultiIndexRange.mk sizes).end_.advance.indices_ = sizes := by
    have h1 := advance_indices sizes sizes rfl
    rw [advanceSpec_self sizes h] at h1
    exact h1
  refine ⟨key, ?_⟩
  simp only [MultiIndexIterator.eq, key, decide_eq_true_eq]
  rfl

/-- Witness of `sentinel_absorbing`: the extents (2, 0, 3). -/
theorem sentinel_absorbing_witness :
    (MultiIndexRange.mk [2, 0, 3]).end_.advance.deref = [2, 0, 3] :=
  (sentinel_absorbing [2, 0, 3] (by decide)).1

/-- C14 (advance step): for positive extents and an in-range coordinate state `c`,
`++` yields the terminal sentinel (the extents tuple) exactly when `c` is the last tuple
(`c_k = e_k - 1` on every axis); otherwise, with `j` the first axis that is not at
`e_j - 1`, it yields the in-range tuple that is 0 on the axes before `j`, `c_j + 1` on
axis `j`, and equal to `c` on the axes after `j`. -/
theorem advance_step (sizes c : List Nat) (h : Extents sizes) (hc : InRange sizes c) :
    ((MultiIndexIterator.advance ⟨sizes, c⟩).deref = sizes ↔
        ∀ k, k < sizes.length → c.getD k 0 = sizes.getD k 0 - 1) ∧
    ((¬ ∀ k, k < sizes.length → c.getD k 0 = sizes.getD k 0 - 1) →
      ∃ j, j < sizes.length ∧ (∀ k, k < j → c.getD k 0 = sizes.getD k 0 - 1) ∧
        c.getD j 0 ≠ sizes.getD j 0 - 1 ∧
        (MultiIndexIterator.advance ⟨sizes, c⟩).deref
          = List.replicate j 0 ++ (c.getD j 0 + 1) :: c.drop (j + 1) ∧
        InRange sizes (MultiIndexIterator.advance ⟨sizes, c⟩).deref) := by
  have hadv : (MultiIndexIterator.advance ⟨sizes, c⟩).deref
      = (advanceSpec sizes c).getD sizes := advance_indices sizes c hc.1
  refine ⟨⟨fun heq => ?_, fun hall => ?_⟩, fun hnot => ?_⟩
  · cases hsp : advanceSpec sizes c with
    | none => exact (advanceSpec_none_iff sizes c h hc).mp hsp
    | some r =>
      exfalso
      rw [hadv, hsp, Option.getD_some] at heq
      have hr := advanceSpec_inRange sizes c r h hc hsp
      rw [heq] at hr
      cases sizes with
      | nil =>
        rw [(inRange_nil_iff c).mp hc] at hsp
        simp [advanceSpec] at hsp
      | cons e es => exact not_inRange_self (e :: es) (by simp) hr
  · rw [hadv, (advanceSpec_none_iff sizes c h hc).mpr hall, Option.getD_none]
  · have hex : ∃ k, k < sizes.length ∧ c.getD k 0 ≠ sizes.getD k 0 - 1 := by
      by_contra hcon
      apply hnot
      intro k hk
      by_contra hk2
      exact hcon ⟨k, hk, hk2⟩
    classical
    have hj := Nat.find_spec hex
    have hmin : ∀ k, k < Nat.find hex → c.getD k 0 = sizes.getD k 0 - 1 := by
      intro k hk
      by_contra hk2
      exact Nat.find_min hex hk ⟨by omega, hk2⟩
    have hsp := advanceSpec_first sizes c (Nat.find hex) h hc hj.1 hmin hj.2
    refine ⟨Nat.find hex, hj.1, hmin, hj.2, ?_, ?_⟩
    · rw [hadv, hsp, Option.getD_some]
    · rw [hadv, hsp, Option.getD_some]
      exact advanceSpec_inRange sizes c _ h hc hsp

/-- Witness of `advance_step`: the state (1, 2, 0) over the extents (2, 3, 2) carries
through the first two axes. -/
theorem advance_step_witness :
    ∃ j, j < [2, 3, 2].length ∧
      (∀ k, k < j → [1, 2, 0].getD k 0 = [2, 3, 2].getD k 0 - 1) ∧
      [1, 2, 0].getD j 0 ≠ [2, 3, 2].getD j 0 - 1 ∧
      (MultiIndexIterator.advance ⟨[2, 3, 2], [1, 2, 0]⟩).deref
        = List.replicate j 0 ++ ([1, 2, 0].getD j 0 + 1) :: [1, 2, 0].drop (j + 1) ∧
      InRange [2, 3, 2] (MultiIndexIterator.advance ⟨[2, 3, 2], [1, 2, 0]⟩).deref :=
  (advance_step [2, 3, 2] [1, 2, 0] (by unfold Extents; decide) ⟨rfl, by decide⟩).2
    (by decide)

end Enumeration

end VecND
